import Mathlib

/-!
Verification of the `bytes-ringbuffer` crate (`src/lib.rs`).

The Rust type

  `pub struct RingBuffer { buffer: Vec<MaybeUninit<u8>>, begin: usize, len: usize }`

is modelled by the structure `RingBuffer` below: the storage vector becomes
`buffer : List (Option Nat)` where a cell is `none` while it is uninitialized and
`some v` once the caller has written the byte `v` into it; the cursors `begin` and
`len` are `Nat`s.  Byte values are plain `Nat`s — the code never computes with them,
it only stores and returns them.  The capacity is `buffer.length`, exactly as
`capacity()` returns `self.buffer.len()` in the source.

Operations that can panic in Rust return `Option`, with `none` modelling the panic:
a failed `assert!`, an out-of-bounds range slice `&v[a..b]` (which panics unless
`a ≤ b ∧ b ≤ v.len()`), and the `%` operator with divisor `0`.  A Rust range slice
`&v[a..b]` itself is modelled by `(v.drop a).take (b - a)`.
-/

structure RingBuffer where
  buffer : List (Option Nat)
  begin : Nat
  len : Nat
  deriving DecidableEq, Repr

/-- `RingBuffer::new(capacity)`: `buffer = vec![MaybeUninit::uninit(); capacity]`
(all cells uninitialized), `begin = 0`, `len = 0`. -/
def RingBuffer.new (capacity : Nat) : RingBuffer :=
  { buffer := List.replicate capacity none, begin := 0, len := 0 }

/-- `RingBuffer::capacity()`: `self.buffer.len()`. -/
def RingBuffer.capacity (rb : RingBuffer) : Nat :=
  rb.buffer.length

/-- `Buf::remaining()`: `self.len`. -/
def RingBuffer.remaining (rb : RingBuffer) : Nat :=
  rb.len

/-- `Buf::bytes()`: `let end = (self.begin + self.len).min(self.capacity());`
then the slice `&self.buffer[self.begin..end]`.  The `if` models the bounds
check of the Rust range slice (out of bounds would panic). -/
def RingBuffer.bytes (rb : RingBuffer) : Option (List (Option Nat)) :=
  let e := min (rb.begin + rb.len) rb.capacity
  if rb.begin ≤ e ∧ e ≤ rb.buffer.length then
    some ((rb.buffer.drop rb.begin).take (e - rb.begin))
  else
    none

/-- `Buf::advance(cnt)`: `assert!(cnt <= self.len)` (failure panics, modelled by
`none`), then `self.begin += cnt; self.begin %= self.capacity()` — the `%=` panics
when `self.capacity() == 0` (remainder by zero), also modelled by `none` — and
finally `self.len -= cnt`. -/
def RingBuffer.advance (rb : RingBuffer) (cnt : Nat) : Option RingBuffer :=
  if cnt ≤ rb.len then
    if rb.capacity ≠ 0 then
      some { rb with begin := (rb.begin + cnt) % rb.capacity, len := rb.len - cnt }
    else
      none
  else
    none

/-- `BufMut::remaining_mut()`: `self.capacity() - self.remaining()`.  For every
reachable state `remaining() ≤ capacity()`, so the `usize` subtraction never
underflows there and truncated `Nat` subtraction agrees with it. -/
def RingBuffer.remaining_mut (rb : RingBuffer) : Nat :=
  rb.capacity - rb.remaining

/-- `BufMut::bytes_mut()`: `let begin = (self.begin + self.len) % self.capacity();`
— this `%` panics when `self.capacity() == 0`, modelled by `none` — then
`let end = (begin + self.remaining_mut()).min(self.capacity());` and the slice
`&mut self.buffer[begin..end]` (bounds check modelled by the inner `if`). -/
def RingBuffer.bytes_mut (rb : RingBuffer) : Option (List (Option Nat)) :=
  if rb.capacity ≠ 0 then
    let b := (rb.begin + rb.len) % rb.capacity
    let e := min (b + rb.remaining_mut) rb.capacity
    if b ≤ e ∧ e ≤ rb.buffer.length then
      some ((rb.buffer.drop b).take (e - b))
    else
      none
  else
    none

/-- `BufMut::advance_mut(cnt)`: `assert!(cnt <= self.remaining_mut())` (failure
panics, modelled by `none`), then `self.len += cnt`. -/
def RingBuffer.advance_mut (rb : RingBuffer) (cnt : Nat) : Option RingBuffer :=
  if cnt ≤ rb.remaining_mut then
    some { rb with len := rb.len + cnt }
  else
    none

/-- The caller storing byte `v` through the slice returned by `bytes_mut`, at
absolute storage index `j`.  The API only lets the caller do this for indices
inside that slice; writing marks the cell initialized (`some v`). -/
def RingBuffer.pokeAt (rb : RingBuffer) (j v : Nat) : RingBuffer :=
  { rb with buffer := rb.buffer.set j (some v) }

/-- One `bytes_mut` + raw write + `advance_mut(1)` cycle, the caller protocol for
appending a single byte (what `put_u8` does): peek the writable slice, write `v`
into its first cell — whose absolute index is `(begin + len) % capacity`, the
start of the slice — and declare it written.  An empty peeked slice means the
write `slice[0] = v` would panic, modelled by `none`. -/
def RingBuffer.writeByte (rb : RingBuffer) (v : Nat) : Option RingBuffer :=
  rb.bytes_mut.bind (fun view =>
    if view.length ≠ 0 then
      (rb.pokeAt ((rb.begin + rb.len) % rb.capacity) v).advance_mut 1
    else
      none)

/-- One `bytes` + read + `advance(1)` cycle, the caller protocol for consuming a
single byte (what `get_u8` does): peek the readable slice, read its first cell,
and consume it.  An empty slice (index panic) or an uninitialized first cell
(which the real code would expose as garbage) is modelled by `none`. -/
def RingBuffer.readByte (rb : RingBuffer) : Option (Nat × RingBuffer) :=
  rb.bytes.bind (fun view =>
    view.head?.bind (fun cell =>
      cell.bind (fun v =>
        (rb.advance 1).map (fun rb2 => (v, rb2)))))

/-- Writing a whole byte sequence through repeated peek-write-advance cycles. -/
def RingBuffer.writeBytes : RingBuffer → List Nat → Option RingBuffer
  | rb, [] => some rb
  | rb, v :: vs => (rb.writeByte v).bind (fun rb2 => rb2.writeBytes vs)

/-- Reading `n` bytes through repeated peek-read-advance cycles. -/
def RingBuffer.readBytes : RingBuffer → Nat → Option (List Nat × RingBuffer)
  | rb, 0 => some ([], rb)
  | rb, n + 1 =>
    rb.readByte.bind (fun p =>
      (p.2.readBytes n).map (fun q => (p.1 :: q.1, q.2)))

/-- The states a `RingBuffer` can be in: constructed by `new`, then changed only
by successful `advance` / `advance_mut` calls and by the caller writing bytes
into the slice handed out by `bytes_mut` (a panicking call leaves no next state). -/
inductive Reachable : RingBuffer → Prop
  | new (capacity : Nat) : Reachable (RingBuffer.new capacity)
  | advance {rb rb' : RingBuffer} {cnt : Nat} :
      Reachable rb → rb.advance cnt = some rb' → Reachable rb'
  | advance_mut {rb rb' : RingBuffer} {cnt : Nat} :
      Reachable rb → rb.advance_mut cnt = some rb' → Reachable rb'
  | poke {rb : RingBuffer} {view : List (Option Nat)} (i v : Nat) :
      Reachable rb → rb.bytes_mut = some view → i < view.length →
      Reachable (rb.pokeAt ((rb.begin + rb.len) % rb.capacity + i) v)

theorem reachable_inv {rb : RingBuffer} (h : Reachable rb) :
    rb.len ≤ rb.capacity ∧ (0 < rb.capacity → rb.begin < rb.capacity) ∧
      (rb.capacity = 0 → rb.begin = 0 ∧ rb.len = 0) := by
  induction h with
  | new c =>
    simp [RingBuffer.new, RingBuffer.capacity]
  | advance hr hs ih =>
    unfold RingBuffer.advance at hs
    split at hs
    · split at hs
      · cases hs
        rename_i hcnt hcap
        refine ⟨?_, fun _ => ?_, fun h0 => absurd h0 ?_⟩
        · simpa [RingBuffer.capacity] using le_trans (Nat.sub_le _ _) ih.1
        · simpa [RingBuffer.capacity] using Nat.mod_lt _ (Nat.pos_of_ne_zero hcap)
        · simpa [RingBuffer.capacity] using hcap
      · cases hs
    · cases hs
  | advance_mut hr hs ih =>
    unfold RingBuffer.advance_mut at hs
    split at hs
    · cases hs
      rename_i hcnt
      have h1 := ih.1
      have h2 := ih.2.1
      have h3 := ih.2.2
      simp only [RingBuffer.capacity, RingBuffer.remaining_mut, RingBuffer.remaining] at *
      exact ⟨by omega, h2, fun h0 => ⟨(h3 h0).1, by have := (h3 h0).2; omega⟩⟩
    · cases hs
  | poke i v hr hbm hi ih =>
    simpa [RingBuffer.pokeAt, RingBuffer.capacity] using ih

theorem mod_shift_ne {c a k : Nat} (hk : 0 < k) (hkc : k < c) :
    a % c ≠ (a + k) % c := by
  intro h
  have hdvd : c ∣ k := by
    have h2 := (Nat.modEq_iff_dvd' (Nat.le_add_right a k)).mp h
    simpa using h2
  exact absurd (Nat.le_of_dvd hk hdvd) (by omega)

theorem writeByte_spec (rb : RingBuffer) (v : Nat)
    (hb : rb.begin < rb.buffer.length) (hl : rb.len < rb.buffer.length) :
    rb.writeByte v = some
      { rb with buffer := rb.buffer.set ((rb.begin + rb.len) % rb.buffer.length) (some v),
                len := rb.len + 1 } := by
  have hc : 0 < rb.buffer.length := Nat.lt_of_le_of_lt (Nat.zero_le _) hb
  have hblt : (rb.begin + rb.len) % rb.buffer.length < rb.buffer.length := Nat.mod_lt _ hc
  simp only [RingBuffer.writeByte, RingBuffer.bytes_mut, RingBuffer.remaining_mut,
    RingBuffer.remaining, RingBuffer.capacity, RingBuffer.pokeAt, RingBuffer.advance_mut]
  rw [if_pos (by omega : rb.buffer.length ≠ 0),
    if_pos (⟨le_min (Nat.le_add_right _ _) (le_of_lt hblt), min_le_right _ _⟩ :
      (rb.begin + rb.len) % rb.buffer.length ≤
        min ((rb.begin + rb.len) % rb.buffer.length + (rb.buffer.length - rb.len))
          rb.buffer.length ∧
      min ((rb.begin + rb.len) % rb.buffer.length + (rb.buffer.length - rb.len))
        rb.buffer.length ≤ rb.buffer.length),
    Option.some_bind]
  rw [if_pos (by rw [List.length_take, List.length_drop]; omega :
    ((rb.buffer.drop ((rb.begin + rb.len) % rb.buffer.length)).take
      (min ((rb.begin + rb.len) % rb.buffer.length + (rb.buffer.length - rb.len))
          rb.buffer.length -
        (rb.begin + rb.len) % rb.buffer.length)).length ≠ 0)]
  rw [if_pos (by rw [List.length_set]; omega :
    1 ≤ (rb.buffer.set ((rb.begin + rb.len) % rb.buffer.length) (some v)).length - rb.len)]

theorem readByte_spec (rb : RingBuffer) (v : Nat)
    (hb : rb.begin < rb.buffer.length) (hl : 0 < rb.len)
    (hcell : rb.buffer[rb.begin]? = some (some v)) :
    rb.readByte = some (v, { rb with begin := (rb.begin + 1) % rb.buffer.length,
                                     len := rb.len - 1 }) := by
  have hc : 0 < rb.buffer.length := Nat.lt_of_le_of_lt (Nat.zero_le _) hb
  simp only [RingBuffer.readByte, RingBuffer.bytes, RingBuffer.capacity,
    RingBuffer.remaining, RingBuffer.advance]
  rw [if_pos (⟨le_min (Nat.le_add_right _ _) (le_of_lt hb), min_le_right _ _⟩ :
      rb.begin ≤ min (rb.begin + rb.len) rb.buffer.length ∧
      min (rb.begin + rb.len) rb.buffer.length ≤ rb.buffer.length),
    Option.some_bind]
  have hview : ((rb.buffer.drop rb.begin).take
      (min (rb.begin + rb.len) rb.buffer.length - rb.begin)).head? = some (some v) := by
    rw [List.head?_eq_getElem?, List.getElem?_take, if_pos (by omega), List.getElem?_drop]
    simpa using hcell
  rw [hview, Option.some_bind, Option.some_bind]
  rw [if_pos (by omega : 1 ≤ rb.len), if_pos (by omega : rb.buffer.length ≠ 0)]
  rfl


theorem writeBytes_spec (data : List Nat) : ∀ rb : RingBuffer,
    rb.begin < rb.buffer.length →
    rb.len + data.length ≤ rb.buffer.length →
    ∃ rb1, rb.writeBytes data = some rb1 ∧
      rb1.begin = rb.begin ∧ rb1.len = rb.len + data.length ∧
      rb1.buffer.length = rb.buffer.length ∧
      (∀ i, (hi : i < data.length) →
        rb1.buffer[(rb.begin + rb.len + i) % rb.buffer.length]? =
          some (some (data.get ⟨i, hi⟩))) ∧
      (∀ j, (∀ i, i < data.length → j ≠ (rb.begin + rb.len + i) % rb.buffer.length) →
        rb1.buffer[j]? = rb.buffer[j]?) := by
  induction data with
  | nil =>
    intro rb hb hlen
    exact ⟨rb, rfl, rfl, by simp, rfl, fun i hi => absurd hi (by simp), fun j _ => rfl⟩
  | cons v vs ih =>
    intro rb hb hlen
    simp only [List.length_cons] at hlen
    have hl : rb.len < rb.buffer.length := by omega
    have hw := writeByte_spec rb v hb hl
    have hblt : (rb.begin + rb.len) % rb.buffer.length < rb.buffer.length :=
      Nat.mod_lt _ (by omega)
    obtain ⟨rb1, hw1, h1b, h1l, h1c, h1cells, h1un⟩ :=
      ih { rb with
            buffer := rb.buffer.set ((rb.begin + rb.len) % rb.buffer.length) (some v),
            len := rb.len + 1 }
        (by simpa [List.length_set] using hb)
        (by simp only [List.length_set]; omega)
    simp only [List.length_set] at h1c h1cells h1un
    have h1b' : rb1.begin = rb.begin := h1b
    have h1l' : rb1.len = rb.len + 1 + vs.length := h1l
    refine ⟨rb1, ?_, h1b', by simp only [List.length_cons]; omega, h1c, ?_, ?_⟩
    · simp only [RingBuffer.writeBytes]
      rw [hw, Option.some_bind]
      exact hw1
    · intro i hi
      match i, hi with
      | 0, hi =>
        have havoid : ∀ i', i' < vs.length →
            (rb.begin + rb.len + 0) % rb.buffer.length ≠
              (rb.begin + (rb.len + 1) + i') % rb.buffer.length := by
          intro i' hi'
          have hidx : rb.begin + (rb.len + 1) + i' = (rb.begin + rb.len + 0) + (1 + i') := by
            omega
          rw [hidx]
          refine mod_shift_ne ?_ ?_
          · omega
          · omega
        have hstep := h1un _ havoid
        rw [hstep]
        simp only [Nat.add_zero]
        rw [List.getElem?_set_eq_of_lt _ hblt]
        rfl
      | i' + 1, hi =>
        have hvs : i' < vs.length := by
          have h2 := hi
          simp only [List.length_cons] at h2
          omega
        have hcc := h1cells i' hvs
        have hidx : rb.begin + (rb.len + 1) + i' = rb.begin + rb.len + (i' + 1) := by omega
        rw [hidx] at hcc
        exact hcc
    · intro j havoid
      have hstep := h1un j (by
        intro i' hi'
        have hidx : rb.begin + (rb.len + 1) + i' = rb.begin + rb.len + (i' + 1) := by omega
        rw [hidx]
        exact havoid (i' + 1) (by simp only [List.length_cons]; omega))
      rw [hstep]
      have hj0 : j ≠ (rb.begin + rb.len) % rb.buffer.length := by
        have h0 := havoid 0 (by simp)
        simpa using h0
      exact List.getElem?_set_ne (Ne.symm hj0)

theorem readBytes_spec (data : List Nat) : ∀ rb : RingBuffer,
    rb.begin < rb.buffer.length →
    rb.len = data.length →
    (∀ i, (hi : i < data.length) →
      rb.buffer[(rb.begin + i) % rb.buffer.length]? = some (some (data.get ⟨i, hi⟩))) →
    ∃ rb2, rb.readBytes data.length = some (data, rb2) := by
  induction data with
  | nil =>
    intro rb hb hlen hcells
    exact ⟨rb, rfl⟩
  | cons v vs ih =>
    intro rb hb hlen hcells
    simp only [List.length_cons] at hlen
    have hc : 0 < rb.buffer.length := by omega
    have hcell0 : rb.buffer[rb.begin]? = some (some v) := by
      have h0 := hcells 0 (by simp)
      rwa [Nat.add_zero, Nat.mod_eq_of_lt hb] at h0
    have hr := readByte_spec rb v hb (by omega) hcell0
    obtain ⟨rb2, hr2⟩ :=
      ih { rb with begin := (rb.begin + 1) % rb.buffer.length, len := rb.len - 1 }
        (Nat.mod_lt _ hc)
        (show rb.len - 1 = vs.length by omega)
        (by
          intro i hi
          have hcc := hcells (i + 1) (Nat.succ_lt_succ hi)
          show rb.buffer[((rb.begin + 1) % rb.buffer.length + i) % rb.buffer.length]? =
            some (some (vs.get ⟨i, hi⟩))
          rw [Nat.mod_add_mod]
          have hidx : rb.begin + 1 + i = rb.begin + (i + 1) := by omega
          rw [hidx]
          exact hcc)
    refine ⟨rb2, ?_⟩
    simp only [List.length_cons, RingBuffer.readBytes]
    rw [hr, Option.some_bind, hr2]
    rfl

/-- Claim C1: for every buffer of capacity `C > 0` whose occupied region is empty —
any cursor position `begin < C` and any stale storage contents, which covers a fresh
buffer, a buffer refilled after a full drain (no stale bytes of an earlier fill are
returned), and writes that straddle the physical end of storage — writing any
sequence of `N ≤ C` bytes via peek-write-advance cycles and then reading `N` bytes
via peek-read-advance cycles succeeds and yields exactly the written bytes in
order. -/
theorem claim_C1_round_trip (rb : RingBuffer) (data : List Nat)
    (hcap : 0 < rb.capacity) (hlen : rb.len = 0) (hbegin : rb.begin < rb.capacity)
    (hdata : data.length ≤ rb.capacity) :
    ∃ rb1 rb2, rb.writeBytes data = some rb1 ∧
      rb1.readBytes data.length = some (data, rb2) := by
  simp only [RingBuffer.capacity] at hcap hbegin hdata
  obtain ⟨rb1, hw, h1b, h1l, h1c, h1cells, h1un⟩ :=
    writeBytes_spec data rb hbegin (by omega)
  simp only [hlen, Nat.add_zero] at h1cells h1l
  obtain ⟨rb2, hr⟩ := readBytes_spec data rb1
    (by rw [h1c, h1b]; exact hbegin)
    (by omega)
    (by intro i hi; rw [h1b, h1c]; exact h1cells i hi)
  exact ⟨rb1, rb2, hw, hr⟩

/-- Witness for C1 at a concrete wrap-around input: capacity 3, cursor already at
offset 2, storage holding stale bytes from an earlier fill; the two written bytes
straddle the physical end of storage and read back in order. -/
theorem claim_C1_round_trip_witness :
    ((((⟨[some 9, some 9, some 9], 2, 0⟩ : RingBuffer).writeBytes [4, 5]).bind
      (fun rb1 => rb1.readBytes 2)).map Prod.fst) = some [4, 5] := by
  obtain ⟨rb1, rb2, hw, hr⟩ :=
    claim_C1_round_trip ⟨[some 9, some 9, some 9], 2, 0⟩ [4, 5]
      (by decide) rfl (by decide) (by decide)
  have hr2 : rb1.readBytes 2 = some ([4, 5], rb2) := hr
  rw [hw, Option.some_bind, hr2]
  rfl

/-- Claim C2: every state reachable by a sequence of operations from
`new capacity` satisfies `len ≤ capacity`, and `begin < capacity` whenever
`capacity > 0`. -/
theorem claim_C2_invariant {rb : RingBuffer} (h : Reachable rb) :
    rb.len ≤ rb.capacity ∧ (0 < rb.capacity → rb.begin < rb.capacity) :=
  ⟨(reachable_inv h).1, (reachable_inv h).2.1⟩

/-- Witness for C2 at the concrete reachable state `new 4`. -/
theorem claim_C2_invariant_witness :
    (RingBuffer.new 4).len ≤ (RingBuffer.new 4).capacity ∧
      (RingBuffer.new 4).begin < (RingBuffer.new 4).capacity :=
  ⟨(claim_C2_invariant (Reachable.new 4)).1,
    (claim_C2_invariant (Reachable.new 4)).2 (by decide)⟩

/-- Claim C3: in every reachable state, `remaining() + remaining_mut()`
equals `capacity()`. -/
theorem claim_C3_capacity_conservation {rb : RingBuffer} (h : Reachable rb) :
    rb.remaining + rb.remaining_mut = rb.capacity := by
  have h1 := (reachable_inv h).1
  simp only [RingBuffer.remaining, RingBuffer.remaining_mut, RingBuffer.capacity] at *
  omega

/-- Witness for C3 at the concrete reachable state `new 4`. -/
theorem claim_C3_capacity_conservation_witness :
    (RingBuffer.new 4).remaining + (RingBuffer.new 4).remaining_mut =
      (RingBuffer.new 4).capacity :=
  claim_C3_capacity_conservation (Reachable.new 4)

/-- Claim C4 (the code refutes it at capacity 0): the claim says `advance(count)`
fails exactly when `count > len`, but on a zero-capacity buffer `advance(0)` has
`count = 0 ≤ len = 0` and still panics: after the `assert!` succeeds the code runs
`self.begin %= self.capacity()`, a remainder by divisor zero.  This theorem
evaluates the model at that failing input. -/
theorem claim_C4_advance_vs_zero_capacity :
    (RingBuffer.new 0).advance 0 = none ∧ (RingBuffer.new 0).len = 0 := by decide

/-- Claim C5: for every reachable buffer state, `advance_mut(cnt)` panics (produces
no next state) exactly when `cnt > remaining_mut()` — in particular when `cnt` is
`remaining_mut() + 1` — and on success only `len` changes, to `len + cnt`.  The
`Reachable` hypothesis scopes the statement to states the program can produce,
where `remaining() ≤ capacity()` holds and the truncated `Nat` subtraction inside
`remaining_mut` agrees with the `usize` subtraction of the source. -/
theorem claim_C5_advance_mut_exact (rb : RingBuffer) (h : Reachable rb) (cnt : Nat) :
    (rb.advance_mut cnt = none ↔ rb.remaining_mut < cnt) ∧
      (∀ rb', rb.advance_mut cnt = some rb' →
        rb'.begin = rb.begin ∧ rb'.buffer = rb.buffer ∧ rb'.len = rb.len + cnt) := by
  unfold RingBuffer.advance_mut
  constructor
  · split
    · rename_i hcnt
      exact iff_of_false (by simp) (by omega)
    · rename_i hcnt
      exact iff_of_true rfl (by omega)
  · intro rb' hs
    split at hs
    · cases hs
      exact ⟨rfl, rfl, rfl⟩
    · cases hs

/-- Witness for C5: on the reachable state `new 2` (where `remaining_mut() = 2`),
`advance_mut(3)` — one more than `remaining_mut()` — fails. -/
theorem claim_C5_advance_mut_exact_witness :
    (RingBuffer.new 2).advance_mut 3 = none :=
  ((claim_C5_advance_mut_exact (RingBuffer.new 2) (Reachable.new 2) 3).1).mpr (by decide)

/-- Claim C6: in every reachable state, `bytes()` succeeds and returns the
contiguous view of storage starting at offset `begin` — a prefix of
`buffer.drop begin` — whose length is exactly `min len (capacity - begin)`, the
occupied region truncated at the physical end of storage. -/
theorem claim_C6_bytes_view (rb : RingBuffer) (h : Reachable rb) :
    rb.bytes =
      some ((rb.buffer.drop rb.begin).take (min rb.len (rb.capacity - rb.begin))) ∧
      ((rb.buffer.drop rb.begin).take (min rb.len (rb.capacity - rb.begin))).length =
        min rb.len (rb.capacity - rb.begin) := by
  obtain ⟨h1, h2, h3⟩ := reachable_inv h
  simp only [RingBuffer.capacity] at *
  have hb : rb.begin ≤ rb.buffer.length := by
    rcases Nat.eq_zero_or_pos rb.buffer.length with h0 | h0
    · have hb0 := (h3 h0).1
      omega
    · exact le_of_lt (h2 h0)
  constructor
  · simp only [RingBuffer.bytes, RingBuffer.capacity]
    rw [if_pos ⟨le_min (Nat.le_add_right _ _) hb, min_le_right _ _⟩]
    have harith : min (rb.begin + rb.len) rb.buffer.length - rb.begin =
        min rb.len (rb.buffer.length - rb.begin) := by omega
    rw [harith]
  · rw [List.length_take, List.length_drop]
    omega

/-- Witness for C6 at the concrete reachable state `new 2`. -/
theorem claim_C6_bytes_view_witness :
    (RingBuffer.new 2).bytes =
      some (((RingBuffer.new 2).buffer.drop (RingBuffer.new 2).begin).take
        (min (RingBuffer.new 2).len
          ((RingBuffer.new 2).capacity - (RingBuffer.new 2).begin))) ∧
      (((RingBuffer.new 2).buffer.drop (RingBuffer.new 2).begin).take
        (min (RingBuffer.new 2).len
          ((RingBuffer.new 2).capacity - (RingBuffer.new 2).begin))).length =
      min (RingBuffer.new 2).len ((RingBuffer.new 2).capacity - (RingBuffer.new 2).begin) :=
  claim_C6_bytes_view (RingBuffer.new 2) (Reachable.new 2)

/-- Claim C7 (the code refutes it at capacity 0): the claim quantifies over every
reachable state, but on the reachable zero-capacity buffer `bytes_mut()` panics —
`(self.begin + self.len) % self.capacity()` is a remainder by divisor zero — instead
of returning the empty free-region view of length `min (0 - 0) (0 - ...) = 0` the
claim's formula prescribes.  First conjunct: the model evaluated at that failing
input.  Second conjunct: for every reachable state of nonzero capacity the claim's
formula is exact — `bytes_mut()` returns the contiguous view starting at physical
offset `(begin + len) % capacity` (a prefix of `buffer.drop` of that offset) with
length exactly `min (capacity - len) (capacity - (begin + len) % capacity)`. -/
theorem claim_C7_bytes_mut_view :
    ((RingBuffer.new 0).bytes_mut = none) ∧
      ∀ rb : RingBuffer, Reachable rb → 0 < rb.capacity →
        rb.bytes_mut =
          some ((rb.buffer.drop ((rb.begin + rb.len) % rb.capacity)).take
            (min (rb.capacity - rb.len)
              (rb.capacity - (rb.begin + rb.len) % rb.capacity))) ∧
        ((rb.buffer.drop ((rb.begin + rb.len) % rb.capacity)).take
            (min (rb.capacity - rb.len)
              (rb.capacity - (rb.begin + rb.len) % rb.capacity))).length =
          min (rb.capacity - rb.len) (rb.capacity - (rb.begin + rb.len) % rb.capacity) := by
  constructor
  · decide
  · intro rb h hpos
    have h1 := (reachable_inv h).1
    simp only [RingBuffer.capacity] at *
    have hblt : (rb.begin + rb.len) % rb.buffer.length < rb.buffer.length :=
      Nat.mod_lt _ hpos
    constructor
    · simp only [RingBuffer.bytes_mut, RingBuffer.remaining_mut, RingBuffer.remaining,
        RingBuffer.capacity]
      rw [if_pos (by omega : rb.buffer.length ≠ 0),
        if_pos (⟨le_min (Nat.le_add_right _ _) (le_of_lt hblt), min_le_right _ _⟩ :
          (rb.begin + rb.len) % rb.buffer.length ≤
            min ((rb.begin + rb.len) % rb.buffer.length + (rb.buffer.length - rb.len))
              rb.buffer.length ∧
          min ((rb.begin + rb.len) % rb.buffer.length + (rb.buffer.length - rb.len))
            rb.buffer.length ≤ rb.buffer.length)]
      have harith : min ((rb.begin + rb.len) % rb.buffer.length +
            (rb.buffer.length - rb.len)) rb.buffer.length -
          (rb.begin + rb.len) % rb.buffer.length =
          min (rb.buffer.length - rb.len)
            (rb.buffer.length - (rb.begin + rb.len) % rb.buffer.length) := by omega
      rw [harith]
    · rw [List.length_take, List.length_drop]
      omega

/-- Witness for C7: the failing zero-capacity input, and the positive part applied
at the concrete reachable state `new 2` (empty buffer: the writable view is the
whole storage). -/
theorem claim_C7_bytes_mut_view_witness :
    (RingBuffer.new 0).bytes_mut = none ∧ (RingBuffer.new 2).bytes_mut = some [none, none] := by
  refine ⟨claim_C7_bytes_mut_view.1, ?_⟩
  have h := (claim_C7_bytes_mut_view.2 (RingBuffer.new 2) (Reachable.new 2) (by decide)).1
  rw [h]
  decide

/-- Claim C8 (the code refutes it at capacity 0): the claim says all zero-length
operations succeed on every buffer including one of capacity 0; on `new 0` the code
leaves `advance_mut(0)` and `bytes()` as harmless no-ops (first two conjuncts,
matching the claim) but `advance(0)` and `bytes_mut()` both panic with a
remainder-by-zero (last two conjuncts, refuting it). -/
theorem claim_C8_zero_capacity_ops :
    ((RingBuffer.new 0).advance_mut 0 = some (RingBuffer.new 0)) ∧
      ((RingBuffer.new 0).bytes = some []) ∧
      ((RingBuffer.new 0).advance 0 = none) ∧
      ((RingBuffer.new 0).bytes_mut = none) := by decide

/-- Claim C9: the concrete scenario at capacity 16 — write bytes `0..6`, check
`remaining() = 6` and `remaining_mut() = 10`, read them back in order; write the 16
bytes `0..16`, check `remaining() = 16`, `remaining_mut() = 0`, a first readable
view of length 10 (wrap truncation), after consuming those 10 a second readable
view of length 6, and drain everything obtaining `0..16` in order. -/
theorem claim_C9_scenario :
    (let s1 := (RingBuffer.new 16).writeBytes [0, 1, 2, 3, 4, 5]
     let r1 := s1.bind (fun rb => rb.readBytes 6)
     let s2 := (r1.map Prod.snd).bind (fun rb =>
       rb.writeBytes [0, 1, 2, 3, 4, 5, 6, 7, 8, 9, 10, 11, 12, 13, 14, 15])
     let r2 := s2.bind (fun rb => rb.readBytes 10)
     let r3 := (r2.map Prod.snd).bind (fun rb => rb.readBytes 6)
     s1.map RingBuffer.remaining = some 6 ∧
     s1.map RingBuffer.remaining_mut = some 10 ∧
     r1.map Prod.fst = some [0, 1, 2, 3, 4, 5] ∧
     s2.map RingBuffer.remaining = some 16 ∧
     s2.map RingBuffer.remaining_mut = some 0 ∧
     (s2.bind RingBuffer.bytes).map List.length = some 10 ∧
     r2.map Prod.fst = some [0, 1, 2, 3, 4, 5, 6, 7, 8, 9] ∧
     ((r2.map Prod.snd).bind RingBuffer.bytes).map List.length = some 6 ∧
     r3.map Prod.fst = some [10, 11, 12, 13, 14, 15]) := by decide

/-- State-passing reading of `capacity(&self)`: the body `self.buffer.len()` only
reads a field and assigns nothing, so the translated post-state is the receiver. -/
def RingBuffer.capacityST (rb : RingBuffer) : Nat × RingBuffer :=
  (rb.capacity, rb)

/-- State-passing reading of `Buf::remaining(&self)`: the body reads `self.len`. -/
def RingBuffer.remainingST (rb : RingBuffer) : Nat × RingBuffer :=
  (rb.remaining, rb)

/-- State-passing reading of `BufMut::remaining_mut(&self)`: the body computes
`self.capacity() - self.remaining()` and assigns nothing. -/
def RingBuffer.remaining_mutST (rb : RingBuffer) : Nat × RingBuffer :=
  (rb.remaining_mut, rb)

/-- State-passing reading of `Buf::bytes(&self)`: the body computes an index and
returns a borrowed slice, assigning nothing. -/
def RingBuffer.bytesST (rb : RingBuffer) : Option (List (Option Nat)) × RingBuffer :=
  (rb.bytes, rb)

/-- State-passing reading of `BufMut::bytes_mut(&mut self)`: the body computes two
indices and returns a borrowed mutable sub-slice; it assigns no field itself, so
the post-state of the call is the receiver.  What the caller may later do through
the borrowed slice is `pokeAt`, treated separately below. -/
def RingBuffer.bytes_mutST (rb : RingBuffer) : Option (List (Option Nat)) × RingBuffer :=
  (rb.bytes_mut, rb)

/-- Claim C10: the query and peek operations are observationally pure on the
cursor state — `capacity`, `remaining`, `remaining_mut`, `bytes` and `bytes_mut`
leave the whole state unchanged, and even a caller write through the peeked
writable slice (`pokeAt`) leaves `begin`, `len` and `capacity` unchanged — so any
sequence of such calls between two advances cannot affect subsequent behaviour. -/
theorem claim_C10_queries_frame (rb : RingBuffer) (j v : Nat) :
    rb.capacityST.2 = rb ∧ rb.remainingST.2 = rb ∧ rb.remaining_mutST.2 = rb ∧
      rb.bytesST.2 = rb ∧ rb.bytes_mutST.2 = rb ∧
      (rb.pokeAt j v).begin = rb.begin ∧ (rb.pokeAt j v).len = rb.len ∧
      (rb.pokeAt j v).capacity = rb.capacity := by
  refine ⟨rfl, rfl, rfl, rfl, rfl, rfl, rfl, ?_⟩
  simp [RingBuffer.pokeAt, RingBuffer.capacity]
